import Mathlib

/-!
Verification of the disk-scheduling engine of `app.py` (functions `fcfs`,
`sstf`, `scan`, `cscan`).  The four Python functions are embedded shallowly:
cylinder numbers and distances are `ℤ` (Python integers), request queues are
`List ℤ`, and each `for` loop over a leg of the sweep becomes a structural
recursion threading the loop state `(total, curr)` explicitly.
-/

namespace DiskScheduling

/-- The `direction` argument of `scan`/`cscan`.  The Python code tests
`direction == 'left'` and treats every other value as the right branch;
only the two values `'left'` and `'right'` are ever supplied. -/
inductive Direction where
  | left
  | right
deriving DecidableEq

/-- Embedding of the leg-traversal loop pattern shared by `fcfs`, `scan` and
`cscan`:
`for r in leg: total += abs(curr - r); seek_sequence.append(r); curr = r`.
Given the entry values of `curr` and `total` and the list of stops `leg`, it
returns the final `(total, curr)`.  The appends are not threaded because the
serviced sequence is exactly the leg list itself. -/
def sweep (curr total : ℤ) : List ℤ → ℤ × ℤ
  | [] => (total, curr)
  | r :: rs => sweep r (total + |curr - r|) rs

/-- Embedding of the `fcfs` distance expression
`sum(abs(order[i] - (head if i == 0 else order[i - 1])) for i in range(len(order)))`:
the sum of absolute gaps along `prev, l[0], l[1], ...`. -/
def fcfsDist (prev : ℤ) : List ℤ → ℤ
  | [] => 0
  | r :: rs => |r - prev| + fcfsDist r rs

/-- Embedding of `fcfs(requests, head)`: the order is `requests.copy()`
(the same sequence of values) and the distance is `fcfsDist`. -/
def fcfs (requests : List ℤ) (head : ℤ) : List ℤ × ℤ :=
  (requests, fcfsDist head requests)

/-- Embedding of Python `min(x :: xs, key=lambda v: abs(v - curr))`:
scan the list keeping the current best, replacing it only on a strictly
smaller key, so the first element attaining the minimum key wins. -/
def minByDist (curr x : ℤ) (xs : List ℤ) : ℤ :=
  xs.foldl (fun best y => if |y - curr| < |best - curr| then y else best) x

/-- The element returned by `minByDist` is a member of the scanned list. -/
theorem minByDist_mem (curr x : ℤ) (xs : List ℤ) : minByDist curr x xs ∈ x :: xs := by
  induction xs generalizing x with
  | nil => simp [minByDist]
  | cons y ys ih =>
    have hstep : minByDist curr x (y :: ys)
        = minByDist curr (if |y - curr| < |x - curr| then y else x) ys := by
      simp [minByDist]
    have h := ih (if |y - curr| < |x - curr| then y else x)
    rw [List.mem_cons] at h
    rw [hstep]
    rcases h with h | h
    · by_cases hc : |y - curr| < |x - curr|
      · rw [if_pos hc] at h ⊢
        simp [h]
      · rw [if_neg hc] at h ⊢
        simp [h]
    · simp [List.mem_cons]
      tauto

/-- Embedding of the `while pending:` loop of `sstf`: pick the nearest pending
request with Python `min` (first occurrence on ties), charge its distance,
service it, move the head there, and `pending.remove(nearest)` (erase the
first occurrence).  Returns `(order, total)` for the remaining run. -/
def sstfGo (curr : ℤ) (pending : List ℤ) : List ℤ × ℤ :=
  match pending with
  | [] => ([], 0)
  | x :: xs =>
    let c := minByDist curr x xs
    let rest := sstfGo c ((x :: xs).erase c)
    (c :: rest.1, |c - curr| + rest.2)
termination_by pending.length
decreasing_by
  rw [List.length_erase_of_mem (minByDist_mem _ _ _)]
  simp

/-- Embedding of `sstf(requests, head)`: run the loop on
`pending = requests.copy()` starting at `head`. -/
def sstf (requests : List ℤ) (head : ℤ) : List ℤ × ℤ :=
  sstfGo head requests

/-- Per-iteration trace of the `sstf` loop: the list of
`(curr, nearest, pending)` triples observed at the top of each iteration,
with `nearest = minByDist curr pending` the request chosen there. -/
def sstfTrace (curr : ℤ) (pending : List ℤ) : List (ℤ × ℤ × List ℤ) :=
  match pending with
  | [] => []
  | x :: xs =>
    let c := minByDist curr x xs
    (curr, c, x :: xs) :: sstfTrace c ((x :: xs).erase c)
termination_by pending.length
decreasing_by
  rw [List.length_erase_of_mem (minByDist_mem _ _ _)]
  simp

/-- Embedding of `left = [r for r in requests if r < head]; left.sort()`. -/
def sortedLeft (requests : List ℤ) (head : ℤ) : List ℤ :=
  List.insertionSort (· ≤ ·) (requests.filter (fun r => decide (r < head)))

/-- Embedding of `right = [r for r in requests if r >= head]; right.sort()`. -/
def sortedRight (requests : List ℤ) (head : ℤ) : List ℤ :=
  List.insertionSort (· ≤ ·) (requests.filter (fun r => decide (head ≤ r)))

/-- Embedding of `scan(requests, head, direction, disk_size)`.  Left branch:
walk `reversed(left)` from `head`, then `total += curr; curr = 0`, then walk
`right`.  Right branch: walk `right` from `head`, then
`total += abs((disk_size - 1) - curr); curr = disk_size - 1`, then walk
`reversed(left)`. -/
def scan (requests : List ℤ) (head : ℤ) (direction : Direction) (disk_size : ℤ) :
    List ℤ × ℤ :=
  let left := sortedLeft requests head
  let right := sortedRight requests head
  match direction with
  | Direction.left =>
    let s1 := sweep head 0 left.reverse
    let s2 := sweep 0 (s1.1 + s1.2) right
    (left.reverse ++ right, s2.1)
  | Direction.right =>
    let s1 := sweep head 0 right
    let s2 := sweep (disk_size - 1) (s1.1 + |disk_size - 1 - s1.2|) left.reverse
    (right ++ left.reverse, s2.1)

/-- Embedding of `cscan(requests, head, direction, disk_size)`.  Left branch:
walk `reversed(left)` from `head`, then `total += curr; curr = disk_size - 1`
(the jump from `0` to `disk_size - 1` adds nothing to `total`), then walk
`reversed(right)`.  Right branch: walk `right` from `head`, then
`total += abs((disk_size - 1) - curr); curr = 0` (the jump back to `0` adds
nothing), then walk `left`. -/
def cscan (requests : List ℤ) (head : ℤ) (direction : Direction) (disk_size : ℤ) :
    List ℤ × ℤ :=
  let left := sortedLeft requests head
  let right := sortedRight requests head
  match direction with
  | Direction.left =>
    let s1 := sweep head 0 left.reverse
    let s2 := sweep (disk_size - 1) (s1.1 + s1.2) right.reverse
    (left.reverse ++ right.reverse, s2.1)
  | Direction.right =>
    let s1 := sweep head 0 right
    let s2 := sweep 0 (s1.1 + |disk_size - 1 - s1.2|) left
    (right ++ left, s2.1)

/-- Explicit-state embedding of a call to `fcfs`: alongside the result, the
second component is the caller's `requests` list after the call.  In the
source, `requests` is only read (`requests.copy()` and iteration); every
mutating statement targets the local copy, so the caller's list is threaded
through unchanged. -/
def fcfsCall (requests : List ℤ) (head : ℤ) : (List ℤ × ℤ) × List ℤ :=
  (fcfs requests head, requests)

/-- Explicit-state embedding of a call to `sstf`: the loop mutates only the
local `pending = requests.copy()` (via `pending.remove`), never `requests`,
so the caller's list after the call is the unchanged input. -/
def sstfCall (requests : List ℤ) (head : ℤ) : (List ℤ × ℤ) × List ℤ :=
  (sstf requests head, requests)

/-- Explicit-state embedding of a call to `scan`: the comprehensions build
fresh lists `left`/`right` and `.sort()` mutates those, never `requests`. -/
def scanCall (requests : List ℤ) (head : ℤ) (direction : Direction) (disk_size : ℤ) :
    (List ℤ × ℤ) × List ℤ :=
  (scan requests head direction disk_size, requests)

/-- Explicit-state embedding of a call to `cscan`; as for `scan`, every
mutation targets the local lists. -/
def cscanCall (requests : List ℤ) (head : ℤ) (direction : Direction) (disk_size : ℤ) :
    (List ℤ × ℤ) × List ℤ :=
  (cscan requests head direction disk_size, requests)

/-! Helper lemmas about `sweep`, `minByDist`, the sorted partitions and the
`sstf` loop. -/

/-- Running `sweep` with entry total `a` just shifts the final total by `a`;
the final head position does not depend on the total accumulator. -/
theorem sweep_shift (l : List ℤ) :
    ∀ curr a, sweep curr a l = (a + (sweep curr 0 l).1, (sweep curr 0 l).2) := by
  induction l with
  | nil =>
    intro curr a
    simp [sweep]
  | cons r rs ih =>
    intro curr a
    simp only [sweep]
    rw [ih r (a + |curr - r|), ih r (0 + |curr - r|)]
    rw [Prod.ext_iff]
    constructor
    · simp
      ring
    · simp

/-- The head position after a sweep is non-negative whenever the entry
position and all stops are. -/
theorem sweep_snd_nonneg (l : List ℤ) :
    ∀ curr a, 0 ≤ curr → (∀ x ∈ l, 0 ≤ x) → 0 ≤ (sweep curr a l).2 := by
  induction l with
  | nil =>
    intro curr a h _
    simpa [sweep] using h
  | cons r rs ih =>
    intro curr a h hl
    simp only [sweep]
    exact ih r _ (hl r (by simp)) (fun x hx => hl x (by simp [hx]))

/-- Members of the sorted left partition are requests below the head. -/
theorem mem_sortedLeft {reqs : List ℤ} {head x : ℤ} (h : x ∈ sortedLeft reqs head) :
    x ∈ reqs ∧ x < head := by
  rw [sortedLeft, List.mem_insertionSort] at h
  simpa using List.mem_filter.mp h

/-- The two sorted partitions together are a permutation of the requests. -/
theorem parts_perm (reqs : List ℤ) (head : ℤ) :
    List.Perm (sortedLeft reqs head ++ sortedRight reqs head) reqs := by
  have h1 := List.perm_insertionSort (α := ℤ) (· ≤ ·)
    (reqs.filter (fun r => decide (r < head)))
  have h2 := List.perm_insertionSort (α := ℤ) (· ≤ ·)
    (reqs.filter (fun r => decide (head ≤ r)))
  have hfil : reqs.filter (fun r => decide (head ≤ r))
      = reqs.filter (fun r => !decide (r < head)) := by
    apply List.filter_congr
    intro x _
    by_cases hx : x < head
    · simp [hx, not_le.mpr hx]
    · simp [hx, not_lt.mp hx]
  refine List.Perm.trans (List.Perm.append h1 h2) ?_
  rw [hfil]
  exact List.filter_append_perm _ reqs

/-- Reversing the left leg keeps the partition permutation. -/
theorem partsL_perm (reqs : List ℤ) (head : ℤ) :
    List.Perm ((sortedLeft reqs head).reverse ++ sortedRight reqs head) reqs :=
  List.Perm.trans
    (List.Perm.append (List.reverse_perm _) (List.Perm.refl _)) (parts_perm reqs head)

/-- The chosen element of `minByDist` is at minimal distance from `curr`
among all scanned elements. -/
theorem minByDist_min (curr x : ℤ) (xs : List ℤ) :
    ∀ y ∈ x :: xs, |minByDist curr x xs - curr| ≤ |y - curr| := by
  induction xs generalizing x with
  | nil =>
    intro y hy
    rw [List.mem_singleton] at hy
    simp [minByDist, hy]
  | cons z zs ih =>
    intro y hy
    have hstep : minByDist curr x (z :: zs)
        = minByDist curr (if |z - curr| < |x - curr| then z else x) zs := by
      simp [minByDist]
    rw [hstep]
    have hmin_b := ih (if |z - curr| < |x - curr| then z else x)
      (if |z - curr| < |x - curr| then z else x) (by simp)
    rcases List.mem_cons.mp hy with rfl | hy2
    · refine le_trans hmin_b ?_
      by_cases hc : |z - curr| < |y - curr|
      · rw [if_pos hc]
        exact le_of_lt hc
      · rw [if_neg hc]
    · rcases List.mem_cons.mp hy2 with rfl | hy3
      · refine le_trans hmin_b ?_
        by_cases hc : |y - curr| < |x - curr|
        · rw [if_pos hc]
        · rw [if_neg hc]
          exact le_of_not_lt hc
      · exact ih (if |z - curr| < |x - curr| then z else x) y (by simp [hy3])

/-- On ties, Python `min` keeps the earliest element: the chosen element is
the first element of the list whose distance to `curr` attains the minimum. -/
theorem minByDist_first (curr x : ℤ) (xs : List ℤ) :
    (x :: xs).find? (fun y => decide (|y - curr| = |minByDist curr x xs - curr|))
      = some (minByDist curr x xs) := by
  induction xs generalizing x with
  | nil =>
    simp [minByDist, List.find?]
  | cons z zs ih =>
    have hstep : minByDist curr x (z :: zs)
        = minByDist curr (if |z - curr| < |x - curr| then z else x) zs := by
      simp [minByDist]
    rw [hstep]
    by_cases hc : |z - curr| < |x - curr|
    · rw [if_pos hc] at hstep ⊢
      have hmin := minByDist_min curr z zs z (by simp)
      have hxne : ¬ |x - curr| = |minByDist curr z zs - curr| := by
        intro h
        rw [h] at hc
        exact absurd hc (not_lt.mpr hmin)
      rw [List.find?_cons_of_neg _ (by simpa using hxne)]
      exact ih z
    · rw [if_neg hc] at hstep ⊢
      push_neg at hc
      have hmin := minByDist_min curr x zs x (by simp)
      by_cases hx : |x - curr| = |minByDist curr x zs - curr|
      · rw [List.find?_cons_of_pos _ (by simpa using hx)]
        have h2 := ih x
        rw [List.find?_cons_of_pos _ (by simpa using hx)] at h2
        exact h2
      · rw [List.find?_cons_of_neg _ (by simpa using hx)]
        have hzne : ¬ |z - curr| = |minByDist curr x zs - curr| := by
          intro h
          rw [h] at hc
          exact hx (le_antisymm hc hmin)
        rw [List.find?_cons_of_neg _ (by simpa using hzne)]
        have h2 := ih x
        rw [List.find?_cons_of_neg _ (by simpa using hx)] at h2
        exact h2

/-- The order produced by the `sstf` loop is a permutation of the pending
requests it starts from. -/
theorem sstfGo_perm (n : ℕ) :
    ∀ curr pending, pending.length = n → List.Perm (sstfGo curr pending).1 pending := by
  induction n with
  | zero =>
    intro curr pending hlen
    rw [List.length_eq_zero] at hlen
    subst hlen
    simp [sstfGo]
  | succ n ih =>
    intro curr pending hlen
    match pending with
    | x :: xs =>
      rw [sstfGo]
      have hmem := minByDist_mem curr x xs
      have herase : ((x :: xs).erase (minByDist curr x xs)).length = n := by
        rw [List.length_erase_of_mem hmem]
        simpa using hlen
      have hih := ih (minByDist curr x xs) ((x :: xs).erase (minByDist curr x xs)) herase
      exact List.Perm.trans (List.Perm.cons _ hih) (List.perm_cons_erase hmem).symm

/-- The `sstf` loop services exactly one request per iteration: the order it
produces has the length of the pending list. -/
theorem sstfGo_length (n : ℕ) :
    ∀ curr pending, pending.length = n → (sstfGo curr pending).1.length = n := by
  induction n with
  | zero =>
    intro curr pending hlen
    rw [List.length_eq_zero] at hlen
    subst hlen
    simp [sstfGo]
  | succ n ih =>
    intro curr pending hlen
    match pending with
    | x :: xs =>
      rw [sstfGo]
      have herase : ((x :: xs).erase (minByDist curr x xs)).length = n := by
        rw [List.length_erase_of_mem (minByDist_mem curr x xs)]
        simpa using hlen
      simpa using ih (minByDist curr x xs) _ herase

/-- The trace has one entry per loop iteration. -/
theorem sstfTrace_length (n : ℕ) :
    ∀ curr pending, pending.length = n → (sstfTrace curr pending).length = n := by
  induction n with
  | zero =>
    intro curr pending hlen
    rw [List.length_eq_zero] at hlen
    subst hlen
    simp [sstfTrace]
  | succ n ih =>
    intro curr pending hlen
    match pending with
    | x :: xs =>
      rw [sstfTrace]
      have herase : ((x :: xs).erase (minByDist curr x xs)).length = n := by
        rw [List.length_erase_of_mem (minByDist_mem curr x xs)]
        simpa using hlen
      simpa using ih (minByDist curr x xs) _ herase

/-- The serviced order is the per-iteration chosen element of the trace. -/
theorem sstfGo_eq_trace_map (n : ℕ) :
    ∀ curr pending, pending.length = n →
      (sstfGo curr pending).1 = (sstfTrace curr pending).map (fun t => t.2.1) := by
  induction n with
  | zero =>
    intro curr pending hlen
    rw [List.length_eq_zero] at hlen
    subst hlen
    simp [sstfGo, sstfTrace]
  | succ n ih =>
    intro curr pending hlen
    match pending with
    | x :: xs =>
      rw [sstfGo, sstfTrace]
      have herase : ((x :: xs).erase (minByDist curr x xs)).length = n := by
        rw [List.length_erase_of_mem (minByDist_mem curr x xs)]
        simpa using hlen
      simpa using ih (minByDist curr x xs) _ herase

/-- Every trace entry `(curr, c, pend)` records a greedy choice: `c` is a
pending request at minimal distance from `curr` among all of `pend`. -/
theorem sstfTrace_greedy (n : ℕ) :
    ∀ curr pending, pending.length = n →
      ∀ t ∈ sstfTrace curr pending,
        t.2.1 ∈ t.2.2 ∧ ∀ y ∈ t.2.2, |t.2.1 - t.1| ≤ |y - t.1| := by
  induction n with
  | zero =>
    intro curr pending hlen
    rw [List.length_eq_zero] at hlen
    subst hlen
    simp [sstfTrace]
  | succ n ih =>
    intro curr pending hlen
    match pending with
    | x :: xs =>
      rw [sstfTrace]
      intro t ht
      rcases List.mem_cons.mp ht with rfl | ht2
      · exact ⟨minByDist_mem curr x xs, minByDist_min curr x xs⟩
      · have herase : ((x :: xs).erase (minByDist curr x xs)).length = n := by
          rw [List.length_erase_of_mem (minByDist_mem curr x xs)]
          simpa using hlen
        exact ih (minByDist curr x xs) _ herase t ht2

/-! Claim theorems. -/

/-- C5: for every non-empty request queue, `fcfs` returns the input order
unchanged with total `|head - requests[0]|` plus the sum of consecutive
gaps, and on the reference input `[82, 170, 43, 140, 24, 16, 190]` with
head `50` the total is `642`. -/
theorem fcfs_identity_order_total :
    (∀ (head r : ℤ) (rest : List ℤ),
        fcfs (r :: rest) head = (r :: rest, |head - r| + fcfsDist r rest))
      ∧ fcfs [82, 170, 43, 140, 24, 16, 190] 50
        = ([82, 170, 43, 140, 24, 16, 190], 642) := by
  constructor
  · intro head r rest
    simp [fcfs, fcfsDist, abs_sub_comm]
  · decide

/-- C8: the `sstf` loop removes exactly one pending request per iteration,
so it runs exactly `requests.length` times: the order it returns and the
iteration trace both have the length of the input queue, and the function
is total on every finite queue. -/
theorem sstf_terminates_length (reqs : List ℤ) (head : ℤ) :
    (sstf reqs head).1.length = reqs.length
      ∧ (sstfTrace head reqs).length = reqs.length :=
  ⟨sstfGo_length reqs.length head reqs rfl, sstfTrace_length reqs.length head reqs rfl⟩

/-- C9: no scheduling function mutates its `requests` argument: in the
explicit-state embedding of each call, the caller's list after the call is
exactly the list passed in. -/
theorem calls_preserve_requests (reqs : List ℤ) (head : ℤ) (dir : Direction) (dsz : ℤ) :
    (fcfsCall reqs head).2 = reqs ∧ (sstfCall reqs head).2 = reqs
      ∧ (scanCall reqs head dir dsz).2 = reqs
      ∧ (cscanCall reqs head dir dsz).2 = reqs :=
  ⟨rfl, rfl, rfl, rfl⟩

/-- C10: the left branch of `scan` never reads `disk_size`, so for direction
`left` the result is the same for any two disk sizes. -/
theorem scan_left_disk_size_independent (reqs : List ℤ) (head d1 d2 : ℤ) :
    scan reqs head Direction.left d1 = scan reqs head Direction.left d2 := rfl

/-- C4: for all four algorithms the serviced order is a permutation of the
input request queue (same multiset, duplicates preserved). -/
theorem order_perm_requests (reqs : List ℤ) (head : ℤ) (dir : Direction) (dsz : ℤ) :
    List.Perm (fcfs reqs head).1 reqs ∧ List.Perm (sstf reqs head).1 reqs
      ∧ List.Perm (scan reqs head dir dsz).1 reqs
      ∧ List.Perm (cscan reqs head dir dsz).1 reqs := by
  refine ⟨List.Perm.refl _, sstfGo_perm reqs.length head reqs rfl, ?_, ?_⟩
  · cases dir with
    | left =>
      simpa [scan] using partsL_perm reqs head
    | right =>
      simp only [scan]
      exact List.Perm.trans List.perm_append_comm (partsL_perm reqs head)
  · cases dir with
    | left =>
      simp only [cscan]
      exact List.Perm.trans
        (List.Perm.append (List.reverse_perm _) (List.reverse_perm _))
        (parts_perm reqs head)
    | right =>
      simp only [cscan]
      exact List.Perm.trans List.perm_append_comm (parts_perm reqs head)

/-- C2 counterexample: `scan` on the empty queue with head `50`, direction
`left`, disk size `200` returns total `50` (the boundary hop to cylinder 0),
not `0` as the claim states. -/
theorem empty_queue_zero_cex : scan ([] : List ℤ) 50 Direction.left 200 ≠ ([], 0) := by
  decide

/-- C2 (amended): on the empty queue `fcfs` and `sstf` return `([], 0)`,
but `scan` and `cscan` still charge the boundary hop: for direction `left`
the total is `head` (the hop down to cylinder 0) and for direction `right`
it is `|disk_size - 1 - head|`; the order is `[]` in all cases. -/
theorem empty_queue_results (head dsz : ℤ) :
    fcfs [] head = ([], 0) ∧ sstf [] head = ([], 0)
      ∧ scan [] head Direction.left dsz = ([], head)
      ∧ scan [] head Direction.right dsz = ([], |dsz - 1 - head|)
      ∧ cscan [] head Direction.left dsz = ([], head)
      ∧ cscan [] head Direction.right dsz = ([], |dsz - 1 - head|) := by
  refine ⟨rfl, ?_, ?_, ?_, ?_, ?_⟩ <;>
    simp [sstf, sstfGo, scan, cscan, sortedLeft, sortedRight, sweep,
      List.insertionSort]

/-- C1 counterexample: for `cscan([16], 50, left, 200)` the code returns
total `50` (hop `50 → 16` of 34 plus hop `16 → 0` of 16); the claim's
accounting, which additionally charges the repositioning jump
`0 → disk_size - 1`, demands `34 + 16 + 199 + 0 = 249`. -/
theorem cscan_wrap_jump_charged_cex :
    (cscan [(16 : ℤ)] 50 Direction.left 200).2 = 50
      ∧ (cscan [(16 : ℤ)] 50 Direction.left 200).2 ≠ 34 + 16 + (200 - 1) + 0 := by
  constructor <;> decide

/-- C1 (amended): for C-SCAN with direction `left` the total is exactly the
descending-leg distances, plus the hop from the last position down to
cylinder 0, plus the return-leg distances starting from `disk_size - 1`;
the repositioning jump from 0 to `disk_size - 1` contributes nothing.
Symmetrically for direction `right` the jump back to 0 is uncharged. -/
theorem cscan_wrap_jump_not_charged (reqs : List ℤ) (head dsz : ℤ) :
    (cscan reqs head Direction.left dsz).2
        = (sweep head 0 (sortedLeft reqs head).reverse).1
          + (sweep head 0 (sortedLeft reqs head).reverse).2
          + (sweep (dsz - 1) 0 (sortedRight reqs head).reverse).1
      ∧ (cscan reqs head Direction.right dsz).2
        = (sweep head 0 (sortedRight reqs head)).1
          + |dsz - 1 - (sweep head 0 (sortedRight reqs head)).2|
          + (sweep 0 0 (sortedLeft reqs head)).1 := by
  constructor
  · simp only [cscan]
    rw [sweep_shift]
  · simp only [cscan]
    rw [sweep_shift]

/-- C6: `scan` always charges the hop to the sweep boundary.  For direction
`left` the total decomposes as the descending-leg distances, plus the
distance from the final position of that leg down to cylinder 0 (which is
the distance from `head` itself when no request lies below `head`), plus
the ascending-leg distances from 0; for direction `right` the hop up to
`disk_size - 1` is charged likewise. -/
theorem scan_boundary_hop_charged (reqs : List ℤ) (head dsz : ℤ)
    (hh : 0 ≤ head) (hr : ∀ r ∈ reqs, 0 ≤ r) :
    ((scan reqs head Direction.left dsz).2
        = (sweep head 0 (sortedLeft reqs head).reverse).1
          + |(sweep head 0 (sortedLeft reqs head).reverse).2 - 0|
          + (sweep 0 0 (sortedRight reqs head)).1)
      ∧ (sortedLeft reqs head = [] →
          (sweep head 0 (sortedLeft reqs head).reverse).2 = head)
      ∧ ((scan reqs head Direction.right dsz).2
        = (sweep head 0 (sortedRight reqs head)).1
          + |dsz - 1 - (sweep head 0 (sortedRight reqs head)).2|
          + (sweep (dsz - 1) 0 (sortedLeft reqs head).reverse).1)
      ∧ (sortedRight reqs head = [] →
          (sweep head 0 (sortedRight reqs head)).2 = head) := by
  have hnn : 0 ≤ (sweep head 0 (sortedLeft reqs head).reverse).2 := by
    apply sweep_snd_nonneg _ _ _ hh
    intro x hx
    rw [List.mem_reverse] at hx
    exact hr x (mem_sortedLeft hx).1
  refine ⟨?_, ?_, ?_, ?_⟩
  · simp only [scan]
    rw [sweep_shift, sub_zero, abs_of_nonneg hnn]
  · intro h
    rw [h]
    simp [sweep]
  · simp only [scan]
    rw [sweep_shift]
  · intro h
    rw [h]
    simp [sweep]

/-- C6 witness: the decomposition at `requests = [16, 82]`, `head = 50`,
`disk_size = 200`. -/
theorem scan_boundary_hop_charged_witness :
    ((scan [(16 : ℤ), 82] 50 Direction.left 200).2
        = (sweep 50 0 (sortedLeft [(16 : ℤ), 82] 50).reverse).1
          + |(sweep 50 0 (sortedLeft [(16 : ℤ), 82] 50).reverse).2 - 0|
          + (sweep 0 0 (sortedRight [(16 : ℤ), 82] 50)).1)
      ∧ (sortedLeft [(16 : ℤ), 82] 50 = [] →
          (sweep 50 0 (sortedLeft [(16 : ℤ), 82] 50).reverse).2 = 50)
      ∧ ((scan [(16 : ℤ), 82] 50 Direction.right 200).2
        = (sweep 50 0 (sortedRight [(16 : ℤ), 82] 50)).1
          + |200 - 1 - (sweep 50 0 (sortedRight [(16 : ℤ), 82] 50)).2|
          + (sweep (200 - 1) 0 (sortedLeft [(16 : ℤ), 82] 50).reverse).1)
      ∧ (sortedRight [(16 : ℤ), 82] 50 = [] →
          (sweep 50 0 (sortedRight [(16 : ℤ), 82] 50)).2 = 50) :=
  scan_boundary_hop_charged [16, 82] 50 200 (by decide) (by decide)

/-- C3 counterexample: with head `50` and pending `[60, 40]` both requests
are at distance 10, the lowest-valued candidate is 40, yet `sstf` services
60 first: Python `min` keeps the first element on a tie, so the order is
`[60, 40]`, not `[40, 60]` as the claim demands. -/
theorem sstf_tie_lowest_cex :
    (sstf [(60 : ℤ), 40] 50).1 = [60, 40]
      ∧ (sstf [(60 : ℤ), 40] 50).1 ≠ [40, 60] := by
  have h : (sstf [(60 : ℤ), 40] 50).1 = [60, 40] := by
    norm_num [sstf, sstfGo, minByDist, List.erase]
  refine ⟨h, ?_⟩
  rw [h]
  decide

/-- C3 (amended): on equidistant pending candidates the `sstf` selection is
deterministic but keeps the candidate occurring earliest in the current
pending list, not the lowest-valued one: the element serviced next by the
loop is `minByDist`, which attains the minimal distance to the head and is
the first element of the pending list whose distance attains it. -/
theorem sstf_tie_first_occurrence (curr x : ℤ) (xs : List ℤ) :
    (sstfGo curr (x :: xs)).1.head? = some (minByDist curr x xs)
      ∧ (∀ y ∈ x :: xs, |minByDist curr x xs - curr| ≤ |y - curr|)
      ∧ (x :: xs).find? (fun y => decide (|y - curr| = |minByDist curr x xs - curr|))
          = some (minByDist curr x xs) := by
  refine ⟨?_, minByDist_min curr x xs, minByDist_first curr x xs⟩
  rw [sstfGo]
  simp

/-- C3 witness: the amended statement at head `50` and pending `[60, 40]`,
with the minimality hypothesis discharged at the pending request `40`. -/
theorem sstf_tie_first_occurrence_witness :
    (sstfGo 50 [(60 : ℤ), 40]).1.head? = some (minByDist 50 60 [40])
      ∧ |minByDist 50 60 [40] - 50| ≤ |(40 : ℤ) - 50|
      ∧ [(60 : ℤ), 40].find?
          (fun y => decide (|y - 50| = |minByDist 50 60 [40] - 50|))
          = some (minByDist 50 60 [40]) :=
  ⟨(sstf_tie_first_occurrence 50 60 [40]).1,
   (sstf_tie_first_occurrence 50 60 [40]).2.1 40 (by decide),
   (sstf_tie_first_occurrence 50 60 [40]).2.2⟩

/-- C7: at every iteration of the `sstf` loop the chosen request is a member
of the then-pending multiset at distance to the current head position at
most the distance of every pending element; the serviced order is exactly
the per-iteration chosen element of the trace. -/
theorem sstf_greedy_invariant (reqs : List ℤ) (head : ℤ) :
    (sstf reqs head).1 = (sstfTrace head reqs).map (fun t => t.2.1)
      ∧ ∀ t ∈ sstfTrace head reqs,
          t.2.1 ∈ t.2.2 ∧ ∀ y ∈ t.2.2, |t.2.1 - t.1| ≤ |y - t.1| :=
  ⟨sstfGo_eq_trace_map reqs.length head reqs rfl,
   sstfTrace_greedy reqs.length head reqs rfl⟩

/-- C7 witness: the invariant at `requests = [82]`, `head = 60`, instantiated
at the single trace entry `(60, 82, [82])` and pending request `82`. -/
theorem sstf_greedy_invariant_witness :
    (sstf [(82 : ℤ)] 60).1 = (sstfTrace 60 [(82 : ℤ)]).map (fun t => t.2.1)
      ∧ |(82 : ℤ) - 60| ≤ |(82 : ℤ) - 60| := by
  have hmem : ((60 : ℤ), (82 : ℤ), [(82 : ℤ)]) ∈ sstfTrace 60 [(82 : ℤ)] := by
    rw [sstfTrace]
    simp [minByDist]
  exact ⟨(sstf_greedy_invariant [82] 60).1,
    ((sstf_greedy_invariant [82] 60).2 (60, 82, [82]) hmem).2 82 (by simp)⟩

end DiskScheduling
